/-
Verification of the backtesting-and-optimization core of the agentai
repository against its specification.

The development shallowly embeds, over ℚ (exact rationals in place of IEEE
floats) and ℕ/ℤ:
  * the four strategy evaluators of
    backend/services/backtesting_service.py (`_execute_rsi_strategy`,
    `_execute_macd_strategy`, `_execute_ma_crossover_strategy`,
    `_execute_bollinger_strategy`) as per-bar step functions folded over the
    bar indices 1..N-1;
  * the metrics calculator `_calculate_metrics`;
  * the backtest entry point `run_backtest` (its validation and
    catch-all-failure behaviour);
  * the parameter-combination generator and sweep cap of
    backend/agents/optimizer_agent.py (`_generate_parameter_combinations`,
    `_parameter_sweep`), the genetic loop (`_genetic_optimization`) and the
    walk-forward window loop (`_walk_forward_analysis`).

Indicator series (RSI, MACD, moving averages, Bollinger bands) are computed
by the external `ta`/pandas libraries, not by this repository; they enter the
embedding as opaque per-bar inputs of type `ℕ → Option ℚ`, where `none`
models NaN during indicator warm-up.  Every float comparison against NaN is
False in Python, which the `o*`/`q*O` comparison helpers reproduce.
-/
import Mathlib

namespace AgentAI

/-! ### Float-with-NaN comparisons

`none` models NaN: any comparison involving NaN is `false`, exactly as for
Python floats. -/

def oLt (x : Option ℚ) (y : ℚ) : Bool :=
  match x with
  | some v => decide (v < y)
  | none => false

def oGt (x : Option ℚ) (y : ℚ) : Bool :=
  match x with
  | some v => decide (y < v)
  | none => false

def oLe2 (x y : Option ℚ) : Bool :=
  match x, y with
  | some a, some b => decide (a ≤ b)
  | _, _ => false

def oGe2 (x y : Option ℚ) : Bool :=
  match x, y with
  | some a, some b => decide (b ≤ a)
  | _, _ => false

def oLt2 (x y : Option ℚ) : Bool :=
  match x, y with
  | some a, some b => decide (a < b)
  | _, _ => false

def oGt2 (x y : Option ℚ) : Bool :=
  match x, y with
  | some a, some b => decide (b < a)
  | _, _ => false

def qLeO (q : ℚ) (y : Option ℚ) : Bool :=
  match y with
  | some b => decide (q ≤ b)
  | none => false

def qGeO (q : ℚ) (y : Option ℚ) : Bool :=
  match y with
  | some b => decide (b ≤ q)
  | none => false

/-! ### Data model of the strategy evaluator

`Position` and `Trade` mirror the dict records built inside the
`_execute_*_strategy` methods.  Timestamps are represented by their bar
index; the derived fields `pnl_pct` and `duration_hours` of the source trade
dict are redundant with the recorded fields and are omitted. -/

structure Position where
  entry_price : ℚ
  entry_time : ℕ
  quantity : ℚ
  stop_loss : ℚ
  take_profit : ℚ
deriving DecidableEq

structure Trade where
  entry_time : ℕ
  exit_time : ℕ
  entry_price : ℚ
  exit_price : ℚ
  quantity : ℚ
  pnl : ℚ
  exit_reason : String
deriving DecidableEq

/-- The mutable state threaded through the bar loop of each
`_execute_*_strategy` method: `trades`, `current_capital`, `position`,
`equity_curve`. -/
structure EvalState where
  trades : List Trade
  capital : ℚ
  position : Option Position
  equity : List ℚ
deriving DecidableEq

/-- Opening a long position: `quantity = current_capital * 0.95 / price`,
`stop_loss = price * (1 - stop_loss_pct)`,
`take_profit = price * (1 + take_profit_pct)`. -/
def enterLong (price : ℚ) (i : ℕ) (stopLossPct takeProfitPct : ℚ)
    (st : EvalState) : EvalState :=
  { st with
    position := some
      { entry_price := price
        entry_time := i
        quantity := st.capital * (95 / 100) / price
        stop_loss := price * (1 - stopLossPct)
        take_profit := price * (1 + takeProfitPct) } }

/-- Closing a position: `pnl = (price - entry_price) * quantity`,
`current_capital += pnl`, append the trade record, clear the position. -/
def closePosition (price : ℚ) (i : ℕ) (reason : String) (pos : Position)
    (st : EvalState) : EvalState :=
  let pnl := (price - pos.entry_price) * pos.quantity
  { st with
    capital := st.capital + pnl
    trades := st.trades ++
      [{ entry_time := pos.entry_time
         exit_time := i
         entry_price := pos.entry_price
         exit_price := price
         quantity := pos.quantity
         pnl := pnl
         exit_reason := reason }]
    position := none }

/-- `equity_curve.append(current_capital)`, executed once per bar at the end
of every loop iteration. -/
def appendEquity (st : EvalState) : EvalState :=
  { st with equity := st.equity ++ [st.capital] }

/-- The common driver `for i in range(1, len(df))` with the seed equity value
`[initial_capital]`. -/
def runStrategy (step : ℕ → EvalState → EvalState) (n : ℕ) (cap : ℚ) :
    EvalState :=
  (List.range' 1 (n - 1)).foldl (fun st i => appendEquity (step i st))
    { trades := [], capital := cap, position := none, equity := [cap] }

/-! ### RSI strategy (`_execute_rsi_strategy`) -/

structure RsiParams where
  oversold_level : ℚ
  overbought_level : ℚ
  stop_loss : ℚ
  take_profit : ℚ

/-- One bar of `_execute_rsi_strategy`: enter when `rsi < oversold_level`;
when in a position, check in order `rsi > overbought_level`,
`price ≤ stop_loss`, `price ≥ take_profit`. -/
def rsiStep (p : RsiParams) (closes : List ℚ) (rsi : ℕ → Option ℚ) (i : ℕ)
    (st : EvalState) : EvalState :=
  let price := closes.getD i 0
  match st.position with
  | none =>
      if oLt (rsi i) p.oversold_level then
        enterLong price i p.stop_loss p.take_profit st
      else st
  | some pos =>
      if oGt (rsi i) p.overbought_level then
        closePosition price i "RSI_OVERBOUGHT" pos st
      else if price ≤ pos.stop_loss then
        closePosition price i "STOP_LOSS" pos st
      else if pos.take_profit ≤ price then
        closePosition price i "TAKE_PROFIT" pos st
      else st

def executeRsiStrategy (closes : List ℚ) (rsi : ℕ → Option ℚ)
    (p : RsiParams) (cap : ℚ) : EvalState :=
  runStrategy (rsiStep p closes rsi) closes.length cap

/-! ### MACD strategy (`_execute_macd_strategy`) -/

structure MacdParams where
  stop_loss : ℚ
  take_profit : ℚ

/-- MACD line crosses above the signal line between bars `i-1` and `i`. -/
def macdCrossUp (ml ms : ℕ → Option ℚ) (i : ℕ) : Bool :=
  oLe2 (ml (i - 1)) (ms (i - 1)) && oGt2 (ml i) (ms i)

/-- MACD line crosses below the signal line between bars `i-1` and `i`. -/
def macdCrossDown (ml ms : ℕ → Option ℚ) (i : ℕ) : Bool :=
  oGe2 (ml (i - 1)) (ms (i - 1)) && oLt2 (ml i) (ms i)

/-- One bar of `_execute_macd_strategy`: enter on a cross-up; when in a
position, check in order the cross-down signal, `price ≤ stop_loss`,
`price ≥ take_profit`. -/
def macdStep (p : MacdParams) (closes : List ℚ) (ml ms : ℕ → Option ℚ)
    (i : ℕ) (st : EvalState) : EvalState :=
  let price := closes.getD i 0
  match st.position with
  | none =>
      if macdCrossUp ml ms i then
        enterLong price i p.stop_loss p.take_profit st
      else st
  | some pos =>
      if macdCrossDown ml ms i then
        closePosition price i "MACD_SIGNAL" pos st
      else if price ≤ pos.stop_loss then
        closePosition price i "STOP_LOSS" pos st
      else if pos.take_profit ≤ price then
        closePosition price i "TAKE_PROFIT" pos st
      else st

def executeMacdStrategy (closes : List ℚ) (ml ms : ℕ → Option ℚ)
    (p : MacdParams) (cap : ℚ) : EvalState :=
  runStrategy (macdStep p closes ml ms) closes.length cap

/-! ### Moving-average crossover strategy (`_execute_ma_crossover_strategy`)

The source stores `stop_loss`/`take_profit` in the position dict but the bar
loop has no branch reading them: the only exit is the cross-down signal. -/

structure MaParams where
  stop_loss : ℚ
  take_profit : ℚ

def maCrossUp (fastMa slowMa : ℕ → Option ℚ) (i : ℕ) : Bool :=
  oLe2 (fastMa (i - 1)) (slowMa (i - 1)) && oGt2 (fastMa i) (slowMa i)

def maCrossDown (fastMa slowMa : ℕ → Option ℚ) (i : ℕ) : Bool :=
  oGe2 (fastMa (i - 1)) (slowMa (i - 1)) && oLt2 (fastMa i) (slowMa i)

/-- One bar of `_execute_ma_crossover_strategy`: enter on a cross-up; exit
only on a cross-down (reason `MA_CROSSOVER`). -/
def maStep (p : MaParams) (closes : List ℚ) (fastMa slowMa : ℕ → Option ℚ)
    (i : ℕ) (st : EvalState) : EvalState :=
  let price := closes.getD i 0
  match st.position with
  | none =>
      if maCrossUp fastMa slowMa i then
        enterLong price i p.stop_loss p.take_profit st
      else st
  | some pos =>
      if maCrossDown fastMa slowMa i then
        closePosition price i "MA_CROSSOVER" pos st
      else st

def executeMaCrossoverStrategy (closes : List ℚ)
    (fastMa slowMa : ℕ → Option ℚ) (p : MaParams) (cap : ℚ) : EvalState :=
  runStrategy (maStep p closes fastMa slowMa) closes.length cap

/-! ### Bollinger-bands strategy (`_execute_bollinger_strategy`)

As for the MA crossover, `stop_loss`/`take_profit` are stored in the
position dict but never consulted by the bar loop: the only exit is
`price ≥ bb_middle`. -/

structure BollParams where
  stop_loss : ℚ
  take_profit : ℚ

/-- One bar of `_execute_bollinger_strategy`: enter when
`price ≤ bb_lower`; exit only when `price ≥ bb_middle` (reason
`BB_MIDDLE`). -/
def bollStep (p : BollParams) (closes : List ℚ)
    (bbLower bbMiddle : ℕ → Option ℚ) (i : ℕ) (st : EvalState) : EvalState :=
  let price := closes.getD i 0
  match st.position with
  | none =>
      if qLeO price (bbLower i) then
        enterLong price i p.stop_loss p.take_profit st
      else st
  | some pos =>
      if qGeO price (bbMiddle i) then
        closePosition price i "BB_MIDDLE" pos st
      else st

def executeBollingerStrategy (closes : List ℚ)
    (bbLower bbMiddle : ℕ → Option ℚ) (p : BollParams) (cap : ℚ) :
    EvalState :=
  runStrategy (bollStep p closes bbLower bbMiddle) closes.length cap

/-! ### Derived observations on evaluator results -/

def sumPnl (trades : List Trade) : ℚ := (trades.map Trade.pnl).sum

/-- The last value of the equity curve (`equity_curve[-1]`). -/
def finalEquity (st : EvalState) : ℚ := st.equity.getLast?.getD 0

/-- The exit-selection order stated by the specification for a bar on which
the evaluator is IN_POSITION: (a) strategy-specific exit signal, (b)
`price ≤ stop_loss_price`, (c) `price ≥ take_profit_price`; the first
matching condition names the `exit_reason`. -/
def firstExitReason (strategySignal : Bool) (signalName : String)
    (price stopLossPrice takeProfitPrice : ℚ) : Option String :=
  if strategySignal then some signalName
  else if price ≤ stopLossPrice then some "STOP_LOSS"
  else if takeProfitPrice ≤ price then some "TAKE_PROFIT"
  else none

/-! ### Metrics calculator (`_calculate_metrics`)

`profit_factor` is `gross_profit / gross_loss` when `gross_loss > 0` and the
`float('inf')` sentinel otherwise, which `PFValue.posInf` represents.  The
Sharpe ratio multiplies by `sqrt(252)`, so it lives in ℝ; every other field
is exact.  The remaining output fields of the source dict
(`total_return_pct`, `average_trade`, `largest_win`, ..., all zero in the
degenerate branch and untouched by the verified properties) are omitted. -/

inductive PFValue where
  | val (q : ℚ)
  | posInf
deriving DecidableEq

structure Metrics where
  total_trades : ℕ
  total_return : ℚ
  win_rate : ℚ
  profit_factor : PFValue
  sharpe : ℝ
  max_drawdown : ℚ

def grossProfit (trades : List Trade) : ℚ :=
  ((trades.filter (fun t => 0 < t.pnl)).map Trade.pnl).sum

def grossLoss (trades : List Trade) : ℚ :=
  |((trades.filter (fun t => t.pnl < 0)).map Trade.pnl).sum|

/-- `np.diff(equity_curve) / equity_curve[:-1]`. -/
def stepReturns : List ℚ → List ℚ
  | a :: b :: rest => (b - a) / a :: stepReturns (b :: rest)
  | _ => []

def listMean (l : List ℚ) : ℚ := l.sum / l.length

/-- Population variance, the square of `np.std`. -/
def listVariance (l : List ℚ) : ℚ :=
  listMean (l.map (fun x => (x - listMean l) ^ 2))

/-- `mean(returns) / std(returns) * sqrt(252)` when `std(returns) > 0`, else
0; `std > 0` is the decidable condition `variance > 0`. -/
noncomputable def sharpeOfEquity (equity : List ℚ) : ℝ :=
  if 1 < equity.length then
    let r := stepReturns equity
    if 0 < listVariance r then
      ((listMean r : ℝ) / Real.sqrt (listVariance r)) * Real.sqrt 252
    else 0
  else 0

/-- The running-peak drawdown scan: `peak` starts at `equity_curve[0]`,
`drawdown = (peak - value) / peak`, keep the maximum. -/
def maxDrawdownAux : List ℚ → ℚ → ℚ → ℚ
  | [], _, md => md
  | v :: rest, peak, md =>
      let peak2 := if peak < v then v else peak
      maxDrawdownAux rest peak2 (max md ((peak2 - v) / peak2))

def maxDrawdown : List ℚ → ℚ
  | [] => 0
  | v :: rest => maxDrawdownAux (v :: rest) v 0

/-- `_calculate_metrics`: the `if not trades` branch returns all-zero
metrics; otherwise the fields are computed from the trade list and equity
curve (`final_capital = equity_curve[-1] if equity_curve else
initial_capital`). -/
noncomputable def calculateMetrics (trades : List Trade) (equity : List ℚ)
    (initialCapital : ℚ) : Metrics :=
  if trades = [] then
    { total_trades := 0, total_return := 0, win_rate := 0
      profit_factor := .val 0, sharpe := 0, max_drawdown := 0 }
  else
    { total_trades := trades.length
      total_return := (trades.map Trade.pnl).sum
      win_rate := ((trades.filter (fun t => 0 < t.pnl)).length : ℚ) /
        (trades.length : ℚ)
      profit_factor :=
        if 0 < grossLoss trades then
          .val (grossProfit trades / grossLoss trades)
        else .posInf
      sharpe := sharpeOfEquity equity
      max_drawdown := maxDrawdown equity }

/-! ### Backtest runner (`run_backtest`)

`run_backtest` wraps its whole body in `try/except Exception` and returns a
`{"success": False, "error": ...}` record instead of letting any error
escape; `BacktestOutcome.failure` is that record.  An unknown
`strategy_name` raises `ValueError("Estrategia no encontrada: ...")` inside
the `try`, so it too becomes a failure record.  Strategy parameters are
supplied directly through the request (the merging of caller overrides with
registry defaults resolves to concrete values and is elided). -/

inductive BacktestOutcome where
  | success (trades : List Trade) (equity : List ℚ) (metrics : Metrics)
  | failure (error : String)

/-- The keys of the strategy registry built by `_load_strategies`. -/
def strategyIds : List String :=
  ["rsi_strategy", "macd_strategy", "ma_crossover", "bollinger_bands"]

structure BacktestRequest where
  strategy_name : String
  closes : List ℚ
  rsi : ℕ → Option ℚ
  macdLine : ℕ → Option ℚ
  macdSignal : ℕ → Option ℚ
  fastMa : ℕ → Option ℚ
  slowMa : ℕ → Option ℚ
  bbLower : ℕ → Option ℚ
  bbMiddle : ℕ → Option ℚ
  rsiParams : RsiParams
  macdParams : MacdParams
  maParams : MaParams
  bollParams : BollParams
  initial_capital : ℚ

noncomputable def runBacktest (req : BacktestRequest) : BacktestOutcome :=
  if req.strategy_name ∉ strategyIds then
    .failure ("Estrategia no encontrada: " ++ req.strategy_name)
  else if req.closes = [] then
    .failure "No se pudieron obtener datos historicos"
  else
    let res :=
      if req.strategy_name = "rsi_strategy" then
        executeRsiStrategy req.closes req.rsi req.rsiParams
          req.initial_capital
      else if req.strategy_name = "macd_strategy" then
        executeMacdStrategy req.closes req.macdLine req.macdSignal
          req.macdParams req.initial_capital
      else if req.strategy_name = "ma_crossover" then
        executeMaCrossoverStrategy req.closes req.fastMa req.slowMa
          req.maParams req.initial_capital
      else
        executeBollingerStrategy req.closes req.bbLower req.bbMiddle
          req.bollParams req.initial_capital
    .success res.trades res.equity
      (calculateMetrics res.trades res.equity req.initial_capital)

/-- `_bayesian_optimization`'s objective function: `if not
backtest_result.get("success", False): return float('-inf')`, else the
objective metric.  `⊥` of `WithBot ℚ` is `float('-inf')`. -/
noncomputable def bayesianTrialValue (objective : Metrics → ℚ) :
    BacktestOutcome → WithBot ℚ
  | .failure _ => ⊥
  | .success _ _ m => (objective m : WithBot ℚ)

/-- The trial loop of `_bayesian_optimization`: `best_value` starts at
`float('-inf')` and is replaced whenever `value > best_value`; the loop
never aborts on a failed trial. -/
noncomputable def bayesianBestValue (objective : Metrics → ℚ)
    (outcomes : List BacktestOutcome) : WithBot ℚ :=
  outcomes.foldl
    (fun best o =>
      if best < bayesianTrialValue objective o then
        bayesianTrialValue objective o
      else best) ⊥

/-- `_genetic_optimization`'s per-individual fitness: the objective metric
when the backtest succeeded, `float('-inf')` otherwise. -/
noncomputable def geneticFitnessValue (objective : Metrics → ℚ) :
    BacktestOutcome → WithBot ℚ
  | .failure _ => ⊥
  | .success _ _ m => (objective m : WithBot ℚ)

/-- A concrete well-formed request used to exercise `run_backtest` on an
unknown strategy id. -/
noncomputable def sampleRequest (name : String) : BacktestRequest :=
  { strategy_name := name
    closes := [100, 101, 102]
    rsi := fun _ => none
    macdLine := fun _ => none
    macdSignal := fun _ => none
    fastMa := fun _ => none
    slowMa := fun _ => none
    bbLower := fun _ => none
    bbMiddle := fun _ => none
    rsiParams := { oversold_level := 30, overbought_level := 70,
                   stop_loss := 1/50, take_profit := 1/25 }
    macdParams := { stop_loss := 1/40, take_profit := 1/20 }
    maParams := { stop_loss := 3/100, take_profit := 3/50 }
    bollParams := { stop_loss := 1/50, take_profit := 1/25 }
    initial_capital := 1000 }

/-! ### Parameter domains and grid generation
(`_generate_parameter_combinations`, `_parameter_sweep`)

A dict-typed range is `{"type": "int"|"float", "min", "max", "step"?}`; the
`step` key defaults to `1` for ints and to `(max - min) / 10` for floats.
Int grids use Python `range(min, max + 1, step)`; float grids use
`np.arange(min, max + step, step)`, whose element count is
`ceil((stop - start) / step)`.  Categorical choices and the bare
two-element-range fallback are not needed by the verified properties. -/

inductive ParamRange where
  | intRange (lo hi : ℤ) (step : Option ℤ)
  | floatRange (lo hi : ℚ) (step : Option ℚ)
deriving DecidableEq

inductive PVal where
  | intV (z : ℤ)
  | floatV (q : ℚ)
deriving DecidableEq

/-- Length of Python `range(a, b, s)` for a positive step. -/
def pyRangeLen (a b s : ℤ) : ℕ :=
  if a < b ∧ 0 < s then ((b - a - 1) / s + 1).toNat else 0

/-- Python `range(a, b, s)` for a positive step. -/
def pyRange (a b s : ℤ) : List ℤ :=
  (List.range (pyRangeLen a b s)).map (fun k : ℕ => a + (k : ℤ) * s)

/-- Element count of `np.arange(start, stop, step)` for a positive step. -/
def npArangeLen (start stop step : ℚ) : ℕ :=
  if 0 < step then (⌈(stop - start) / step⌉).toNat else 0

/-- `np.arange(start, stop, step)` in exact arithmetic. -/
def npArange (start stop step : ℚ) : List ℚ :=
  (List.range (npArangeLen start stop step)).map
    (fun k : ℕ => start + (k : ℚ) * step)

/-- The per-parameter value list built by
`_generate_parameter_combinations`. -/
def gridValues : ParamRange → List PVal
  | .intRange lo hi st =>
      (pyRange lo (hi + 1) (st.getD 1)).map PVal.intV
  | .floatRange lo hi st =>
      let s := st.getD ((hi - lo) / 10)
      (npArange lo (hi + s) s).map PVal.floatV

/-- `itertools.product(*param_values)`: the first parameter varies slowest,
the last fastest. -/
def cartProd : List (List α) → List (List α)
  | [] => [[]]
  | vs :: rest => vs.flatMap (fun v => (cartProd rest).map (fun c => v :: c))

/-- `_generate_parameter_combinations`: the Cartesian product of the
per-parameter value lists, each combination zipped with the parameter
names (Python dicts preserve insertion order). -/
def generateParameterCombinations (domains : List (String × ParamRange)) :
    List (List (String × PVal)) :=
  (cartProd (domains.map (fun d => gridValues d.2))).map
    (fun combo => (domains.map Prod.fst).zip combo)

/-- `_parameter_sweep`'s cap: combinations beyond the first 1000 (in
generation order) are dropped. -/
def sweepCombinations (domains : List (String × ParamRange)) :
    List (List (String × PVal)) :=
  let cs := generateParameterCombinations domains
  if 1000 < cs.length then cs.take 1000 else cs

/-- The worked two-parameter grid domain `{a: int 1..3, b: int 1..2}`. -/
def exampleDomainsAB : List (String × ParamRange) :=
  [("a", .intRange 1 3 none), ("b", .intRange 1 2 none)]

/-! ### Random sampling of parameter values
(`_genetic_optimization` initialization, `_mutate`, optuna suggestions)

`np.random.randint(lo, hi + 1)` and `np.random.uniform(lo, hi)` are
nondeterministic; their outcomes are modelled as functions of an abstract
draw (`seed : ℕ` mapped through the modulus, `r : ℚ` standing for a uniform
draw in `[0, 1]`), so that every reachable outcome is some instantiation of
the draw and every instantiation is a reachable outcome. -/

/-- Outcome of `np.random.randint(lo, hi + 1)` under draw `seed`. -/
def randintOutcome (lo hi : ℤ) (seed : ℕ) : ℤ :=
  lo + (seed % (hi + 1 - lo).toNat : ℕ)

/-- Outcome of `np.random.uniform(lo, hi)` under draw `r ∈ [0, 1]`. -/
def uniformOutcome (lo hi r : ℚ) : ℚ :=
  lo + r * (hi - lo)

/-- One sampled parameter value, as drawn by the genetic initializer
(`np.random.randint(min, max + 1)` for ints, `np.random.uniform(min, max)`
for floats). -/
def geneticSampleValue (pr : ParamRange) (seed : ℕ) (r : ℚ) : PVal :=
  match pr with
  | .intRange lo hi _ => .intV (randintOutcome lo hi seed)
  | .floatRange lo hi _ => .floatV (uniformOutcome lo hi r)

/-- `_mutate` for one parameter: with probability `mutation_rate` (the
`trigger` draw) the value is re-sampled inside its declared range, else it
is kept. -/
def mutateParamValue (pr : ParamRange) (trigger : Bool) (seed : ℕ) (r : ℚ)
    (v : PVal) : PVal :=
  if trigger then geneticSampleValue pr seed r else v

/-- Modelled from the optuna contract (external library, not part of this
repository): `trial.suggest_int(name, low, high)` returns an integer inside
`[low, high]`. -/
def suggestIntOutcome (lo hi : ℤ) (seed : ℕ) : ℤ :=
  lo + (seed % (hi + 1 - lo).toNat : ℕ)

/-- Modelled from the optuna contract (external library, not part of this
repository): `trial.suggest_float(name, low, high)` returns a float inside
`[low, high]`, here `lo + r * (hi - lo)` for a draw `r ∈ [0, 1]`. -/
def suggestFloatOutcome (lo hi r : ℚ) : ℚ :=
  lo + r * (hi - lo)

/-- The declared bounds invariant: a probed value lies inside the declared
`[min, max]` of its parameter. -/
def inBounds : ParamRange → PVal → Prop
  | .intRange lo hi _, .intV z => lo ≤ z ∧ z ≤ hi
  | .floatRange lo hi _, .floatV q => lo ≤ q ∧ q ≤ hi
  | _, _ => False

instance : ∀ pr v, Decidable (inBounds pr v) := fun pr v => by
  cases pr <;> cases v <;> simp only [inBounds] <;> infer_instance

/-! ### Genetic search loop (`_genetic_optimization`)

The loop is modelled generically: individuals have an abstract type `α`,
fitness takes values in a linear order `F` (in the source, the objective
metric of a deterministic backtest, or `float('-inf')` for a failed one —
determinism makes fitness a function of the individual).  Per generation the
code evaluates every individual, updates the running `best_fitness` /
`best_individual` on strict improvement, records `max(fitness_scores)` in
`generation_history`, and — except after the last generation — rebuilds the
population as the elite quartile (`np.argsort(fitness_scores)[::-1]` then
`take population_size // 4`) plus tournament/crossover/mutation children.
The children of generation `g` are nondeterministic; they enter through the
oracle `children : ℕ → List α`. -/

/-- The descending fitness comparison realising
`np.argsort(fitness_scores)[::-1]`. -/
def fitDesc (fitness : α → F) [LinearOrder F] (a b : α) : Bool :=
  decide (fitness b ≤ fitness a)

/-- `elite = [population[i] for i in sorted_indices[:elite_size]]`. -/
def eliteOf [LinearOrder F] (fitness : α → F) (pop : List α) (k : ℕ) :
    List α :=
  (pop.mergeSort (fitDesc fitness)).take k

structure GenState (α F : Type) where
  population : List α
  bestIndividual : Option α
  bestFitness : WithBot F
  history : List (WithBot F)

/-- `if fitness > best_fitness: best_fitness = fitness;
best_individual = individual.copy()`. -/
def updateBest [LinearOrder F] (fitness : α → F)
    (b : Option α × WithBot F) (x : α) : Option α × WithBot F :=
  if b.2 < (fitness x : WithBot F) then (some x, (fitness x : WithBot F))
  else b

/-- `max(fitness_scores)` of one generation (`⊥` for an empty
population). -/
def bestScore [LinearOrder F] (fitness : α → F) (pop : List α) : WithBot F :=
  pop.foldl (fun m x => max m (fitness x : WithBot F)) ⊥

/-- Evaluate one generation: fold the best-update over the population and
append `max(fitness_scores)` to `generation_history`. -/
def evalPhase [LinearOrder F] (fitness : α → F) (st : GenState α F) :
    GenState α F :=
  let b := st.population.foldl (updateBest fitness)
    (st.bestIndividual, st.bestFitness)
  { st with
    bestIndividual := b.1
    bestFitness := b.2
    history := st.history ++ [bestScore fitness st.population] }

/-- Rebuild the population: elites (`population_size // 4` of them) carried
over unconditionally, then the oracle-supplied children. -/
def reproducePhase [LinearOrder F] (fitness : α → F) (popSize : ℕ)
    (children : List α) (st : GenState α F) : GenState α F :=
  { st with
    population := eliteOf fitness st.population (popSize / 4) ++ children }

def geneticInit (initPop : List α) : GenState α F :=
  { population := initPop, bestIndividual := none, bestFitness := ⊥,
    history := [] }

/-- One generation of the loop: evaluation always, reproduction only when
`generation < generations - 1`. -/
def geneticStep [LinearOrder F] (fitness : α → F) (popSize gens : ℕ)
    (children : ℕ → List α) (st : GenState α F) (g : ℕ) : GenState α F :=
  let st2 := evalPhase fitness st
  if g < gens - 1 then reproducePhase fitness popSize (children g) st2
  else st2

/-- The full genetic loop over `generations` generations. -/
def geneticRun [LinearOrder F] (fitness : α → F) (popSize : ℕ)
    (children : ℕ → List α) (initPop : List α) (gens : ℕ) : GenState α F :=
  (List.range gens).foldl (geneticStep fitness popSize gens children)
    (geneticInit initPop)

/-- Always-reproduce variant of the loop body, used to factor the run. -/
def geneticStepRep [LinearOrder F] (fitness : α → F) (popSize : ℕ)
    (children : ℕ → List α) (st : GenState α F) (g : ℕ) : GenState α F :=
  reproducePhase fitness popSize (children g) (evalPhase fitness st)

/-- A trade whose pnl is exactly zero (probe input for the metrics
calculator). -/
def zeroTrade : Trade :=
  { entry_time := 0, exit_time := 1, entry_price := 100, exit_price := 100,
    quantity := 1, pnl := 0, exit_reason := "BB_MIDDLE" }

/-- A declared parameter domain is well-formed when its bounds are
ordered. -/
def rangeNonempty : ParamRange → Prop
  | .intRange lo hi _ => lo ≤ hi
  | .floatRange lo hi _ => lo ≤ hi

/-! ### Walk-forward window loop (`_walk_forward_analysis`)

Dates are measured in days from the start of the full range: `cur` starts
at 0 and the loop body runs while `cur + window_size ≤ range_length`,
advancing `cur` by `step_size`.  The guard requires a positive step (the
source would not terminate on `step_size = 0`). -/

def walkForwardCount (windowSize stepSize rangeLen cur : ℕ) : ℕ :=
  if h : 0 < stepSize ∧ cur + windowSize ≤ rangeLen then
    walkForwardCount windowSize stepSize rangeLen (cur + stepSize) + 1
  else 0
termination_by rangeLen + 1 - cur
decreasing_by omega

/-! ## Shared lemmas about the evaluator bar loop -/

theorem sumPnl_append (l : List Trade) (t : Trade) :
    sumPnl (l ++ [t]) = sumPnl l + t.pnl := by
  simp [sumPnl]

/-- `rsiStep` leaves the equity curve untouched and changes capital exactly
by the pnl of the trades it appends. -/
theorem rsiStep_frame (p : RsiParams) (closes : List ℚ)
    (rsi : ℕ → Option ℚ) (i : ℕ) (s : EvalState) :
    (rsiStep p closes rsi i s).equity = s.equity
    ∧ (rsiStep p closes rsi i s).capital
        - sumPnl (rsiStep p closes rsi i s).trades
      = s.capital - sumPnl s.trades := by
  cases hp : s.position with
  | none =>
      simp only [rsiStep, hp]
      split_ifs <;> simp [enterLong]
  | some pos =>
      simp only [rsiStep, hp]
      split_ifs <;> simp [closePosition, sumPnl_append] <;> ring

theorem macdStep_frame (p : MacdParams) (closes : List ℚ)
    (ml ms : ℕ → Option ℚ) (i : ℕ) (s : EvalState) :
    (macdStep p closes ml ms i s).equity = s.equity
    ∧ (macdStep p closes ml ms i s).capital
        - sumPnl (macdStep p closes ml ms i s).trades
      = s.capital - sumPnl s.trades := by
  cases hp : s.position with
  | none =>
      simp only [macdStep, hp]
      split_ifs <;> simp [enterLong]
  | some pos =>
      simp only [macdStep, hp]
      split_ifs <;> simp [closePosition, sumPnl_append] <;> ring

theorem maStep_frame (p : MaParams) (closes : List ℚ)
    (fastMa slowMa : ℕ → Option ℚ) (i : ℕ) (s : EvalState) :
    (maStep p closes fastMa slowMa i s).equity = s.equity
    ∧ (maStep p closes fastMa slowMa i s).capital
        - sumPnl (maStep p closes fastMa slowMa i s).trades
      = s.capital - sumPnl s.trades := by
  cases hp : s.position with
  | none =>
      simp only [maStep, hp]
      split_ifs <;> simp [enterLong]
  | some pos =>
      simp only [maStep, hp]
      split_ifs <;> simp [closePosition, sumPnl_append] <;> ring

theorem bollStep_frame (p : BollParams) (closes : List ℚ)
    (bbLower bbMiddle : ℕ → Option ℚ) (i : ℕ) (s : EvalState) :
    (bollStep p closes bbLower bbMiddle i s).equity = s.equity
    ∧ (bollStep p closes bbLower bbMiddle i s).capital
        - sumPnl (bollStep p closes bbLower bbMiddle i s).trades
      = s.capital - sumPnl s.trades := by
  cases hp : s.position with
  | none =>
      simp only [bollStep, hp]
      split_ifs <;> simp [enterLong]
  | some pos =>
      simp only [bollStep, hp]
      split_ifs <;> simp [closePosition, sumPnl_append] <;> ring

/-- The bar loop appends exactly one equity value per processed bar. -/
theorem foldlBars_equity_length (step : ℕ → EvalState → EvalState)
    (hstep : ∀ i s, (step i s).equity = s.equity) :
    ∀ (l : List ℕ) (st : EvalState),
      ((l.foldl (fun s i => appendEquity (step i s)) st).equity).length
        = st.equity.length + l.length := by
  intro l
  induction l with
  | nil => intro st; simp
  | cons i t ih =>
      intro st
      rw [List.foldl_cons, ih]
      simp [appendEquity, hstep]
      omega

/-- The bar loop never changes the first (seed) equity value. -/
theorem foldlBars_equity_head (step : ℕ → EvalState → EvalState)
    (hstep : ∀ i s, (step i s).equity = s.equity) :
    ∀ (l : List ℕ) (st : EvalState), st.equity ≠ [] →
      ((l.foldl (fun s i => appendEquity (step i s)) st).equity).head?
          = st.equity.head?
        ∧ (l.foldl (fun s i => appendEquity (step i s)) st).equity ≠ [] := by
  intro l
  induction l with
  | nil => intro st h; exact ⟨rfl, h⟩
  | cons i t ih =>
      intro st h
      rw [List.foldl_cons]
      have he : (appendEquity (step i st)).equity = st.equity ++ [(step i st).capital] := by
        simp [appendEquity, hstep]
      have hne : (appendEquity (step i st)).equity ≠ [] := by
        simp [he]
      have := ih (appendEquity (step i st)) hne
      refine ⟨?_, this.2⟩
      rw [this.1, he]
      cases he2 : st.equity with
      | nil => exact absurd he2 h
      | cons a u => simp

/-- Capital-conservation invariant of the bar loop: the difference between
current capital and the summed pnl of emitted trades is constant, and the
last equity value always equals the current capital. -/
theorem foldlBars_conserve (step : ℕ → EvalState → EvalState)
    (hstepCons : ∀ i s,
      (step i s).capital - sumPnl (step i s).trades
        = s.capital - sumPnl s.trades) :
    ∀ (l : List ℕ) (st : EvalState),
      ((l.foldl (fun s i => appendEquity (step i s)) st).capital
          - sumPnl (l.foldl (fun s i => appendEquity (step i s)) st).trades
        = st.capital - sumPnl st.trades)
      ∧ (st.equity.getLast? = some st.capital →
          ((l.foldl (fun s i => appendEquity (step i s)) st).equity).getLast?
            = some (l.foldl (fun s i => appendEquity (step i s)) st).capital) := by
  intro l
  induction l with
  | nil => intro st; exact ⟨rfl, fun h => h⟩
  | cons i t ih =>
      intro st
      rw [List.foldl_cons]
      have h1 : (appendEquity (step i st)).capital
          - sumPnl (appendEquity (step i st)).trades
          = st.capital - sumPnl st.trades := hstepCons i st
      have h2 : ((appendEquity (step i st)).equity).getLast?
          = some (appendEquity (step i st)).capital := by
        simp [appendEquity]
      have := ih (appendEquity (step i st))
      exact ⟨this.1.trans h1, fun _ => this.2 h2⟩

/-- Packaging of the equity-length and seed-value facts for a full
strategy run. -/
theorem runStrategy_equity (step : ℕ → EvalState → EvalState)
    (hstep : ∀ i s, (step i s).equity = s.equity) (n : ℕ) (hn : 1 ≤ n)
    (cap : ℚ) :
    (runStrategy step n cap).equity.length = n
    ∧ (runStrategy step n cap).equity.head? = some cap := by
  constructor
  · have := foldlBars_equity_length step hstep (List.range' 1 (n - 1))
      { trades := [], capital := cap, position := none, equity := [cap] }
    rw [runStrategy, this]
    simp
    omega
  · have := foldlBars_equity_head step hstep (List.range' 1 (n - 1))
      { trades := [], capital := cap, position := none, equity := [cap] }
      (by simp)
    rw [runStrategy, this.1]
    rfl

/-- Packaging of capital conservation for a full strategy run: the last
equity value is the initial capital plus the summed pnl of all emitted
trades. -/
theorem runStrategy_conserve (step : ℕ → EvalState → EvalState)
    (hstepCons : ∀ i s,
      (step i s).capital - sumPnl (step i s).trades
        = s.capital - sumPnl s.trades) (n : ℕ) (cap : ℚ) :
    finalEquity (runStrategy step n cap)
      = cap + sumPnl (runStrategy step n cap).trades := by
  have h := foldlBars_conserve step hstepCons (List.range' 1 (n - 1))
    { trades := [], capital := cap, position := none, equity := [cap] }
  have h2 := h.2 (by simp)
  have h1 := h.1
  simp only [sumPnl, List.map_nil, List.sum_nil, sub_zero] at h1
  simp only [runStrategy, finalEquity]
  rw [h2]
  simp only [Option.getD_some, sumPnl]
  linarith

/-! ## C4 and C5: equity-curve invariants of the strategy evaluators -/

/-- C4: for every strategy evaluation, the final value of the returned
equity curve equals `initial_capital` plus the sum of `pnl` over all emitted
trades; a position still open at the end of the series contributes
nothing. -/
theorem capital_conservation :
    (∀ (closes : List ℚ) (rsi : ℕ → Option ℚ) (p : RsiParams) (cap : ℚ),
        closes ≠ [] →
        finalEquity (executeRsiStrategy closes rsi p cap)
          = cap + sumPnl (executeRsiStrategy closes rsi p cap).trades)
    ∧ (∀ (closes : List ℚ) (ml ms : ℕ → Option ℚ) (p : MacdParams)
        (cap : ℚ), closes ≠ [] →
        finalEquity (executeMacdStrategy closes ml ms p cap)
          = cap + sumPnl (executeMacdStrategy closes ml ms p cap).trades)
    ∧ (∀ (closes : List ℚ) (fastMa slowMa : ℕ → Option ℚ) (p : MaParams)
        (cap : ℚ), closes ≠ [] →
        finalEquity (executeMaCrossoverStrategy closes fastMa slowMa p cap)
          = cap + sumPnl
              (executeMaCrossoverStrategy closes fastMa slowMa p cap).trades)
    ∧ (∀ (closes : List ℚ) (bbLower bbMiddle : ℕ → Option ℚ)
        (p : BollParams) (cap : ℚ), closes ≠ [] →
        finalEquity (executeBollingerStrategy closes bbLower bbMiddle p cap)
          = cap + sumPnl
              (executeBollingerStrategy closes bbLower bbMiddle p cap).trades) := by
  refine ⟨fun closes rsi p cap _ => ?_, fun closes ml ms p cap _ => ?_,
    fun closes fastMa slowMa p cap _ => ?_,
    fun closes bbLower bbMiddle p cap _ => ?_⟩
  · exact runStrategy_conserve _ (fun i s => (rsiStep_frame p closes rsi i s).2)
      closes.length cap
  · exact runStrategy_conserve _ (fun i s => (macdStep_frame p closes ml ms i s).2)
      closes.length cap
  · exact runStrategy_conserve _
      (fun i s => (maStep_frame p closes fastMa slowMa i s).2) closes.length cap
  · exact runStrategy_conserve _
      (fun i s => (bollStep_frame p closes bbLower bbMiddle i s).2)
      closes.length cap

/-- Witness for `capital_conservation` at a concrete input. -/
theorem capital_conservation_witness :
    ([100, 90, 80] : List ℚ) ≠ []
    ∧ finalEquity (executeRsiStrategy [100, 90, 80] (fun _ => none)
        ⟨30, 70, 1/50, 1/25⟩ 1000)
      = 1000 + sumPnl (executeRsiStrategy [100, 90, 80] (fun _ => none)
        ⟨30, 70, 1/50, 1/25⟩ 1000).trades :=
  ⟨by simp, capital_conservation.1 [100, 90, 80] (fun _ => none)
    ⟨30, 70, 1/50, 1/25⟩ 1000 (by simp)⟩

/-- C5: for every strategy evaluation over a non-empty price series of N
bars, the returned equity curve has exactly N entries: the seed value
`initial_capital` followed by one appended value per processed bar
(bars 1..N-1). -/
theorem equity_curve_length_invariant :
    (∀ (closes : List ℚ) (rsi : ℕ → Option ℚ) (p : RsiParams) (cap : ℚ),
        closes ≠ [] →
        (executeRsiStrategy closes rsi p cap).equity.length = closes.length
        ∧ (executeRsiStrategy closes rsi p cap).equity.head? = some cap)
    ∧ (∀ (closes : List ℚ) (ml ms : ℕ → Option ℚ) (p : MacdParams)
        (cap : ℚ), closes ≠ [] →
        (executeMacdStrategy closes ml ms p cap).equity.length = closes.length
        ∧ (executeMacdStrategy closes ml ms p cap).equity.head? = some cap)
    ∧ (∀ (closes : List ℚ) (fastMa slowMa : ℕ → Option ℚ) (p : MaParams)
        (cap : ℚ), closes ≠ [] →
        (executeMaCrossoverStrategy closes fastMa slowMa p cap).equity.length
          = closes.length
        ∧ (executeMaCrossoverStrategy closes fastMa slowMa p cap).equity.head?
          = some cap)
    ∧ (∀ (closes : List ℚ) (bbLower bbMiddle : ℕ → Option ℚ)
        (p : BollParams) (cap : ℚ), closes ≠ [] →
        (executeBollingerStrategy closes bbLower bbMiddle p cap).equity.length
          = closes.length
        ∧ (executeBollingerStrategy closes bbLower bbMiddle p cap).equity.head?
          = some cap) := by
  refine ⟨fun closes rsi p cap h => ?_, fun closes ml ms p cap h => ?_,
    fun closes fastMa slowMa p cap h => ?_,
    fun closes bbLower bbMiddle p cap h => ?_⟩
  · exact runStrategy_equity _ (fun i s => (rsiStep_frame p closes rsi i s).1)
      closes.length (List.length_pos.mpr h) cap
  · exact runStrategy_equity _ (fun i s => (macdStep_frame p closes ml ms i s).1)
      closes.length (List.length_pos.mpr h) cap
  · exact runStrategy_equity _
      (fun i s => (maStep_frame p closes fastMa slowMa i s).1) closes.length
      (List.length_pos.mpr h) cap
  · exact runStrategy_equity _
      (fun i s => (bollStep_frame p closes bbLower bbMiddle i s).1)
      closes.length (List.length_pos.mpr h) cap

/-- Witness for `equity_curve_length_invariant` at a concrete input. -/
theorem equity_curve_length_invariant_witness :
    ([100, 90, 80] : List ℚ) ≠ []
    ∧ ((executeBollingerStrategy [100, 90, 80] (fun _ => none) (fun _ => none)
          ⟨1/50, 1/25⟩ 1000).equity.length = 3
        ∧ (executeBollingerStrategy [100, 90, 80] (fun _ => none)
            (fun _ => none) ⟨1/50, 1/25⟩ 1000).equity.head? = some 1000) :=
  ⟨by simp, equity_curve_length_invariant.2.2.2 [100, 90, 80] (fun _ => none)
    (fun _ => none) ⟨1/50, 1/25⟩ 1000 (by simp)⟩

/-! ## C1: exit-condition priority order -/

/-- C1 counterexample: in `_execute_bollinger_strategy`, a bar whose price
lies below the open position's `stop_loss` produces no exit at all (no trade
with `exit_reason = STOP_LOSS`), because the bollinger loop exits only on
`price ≥ bb_middle`; the claimed priority order (a) signal, (b) stop loss,
(c) take profit does not hold for `bollinger_bands`.  Series `[100, 90, 80]`
with `bb_lower = 95` at bar 1 opens a long at 90 with stop_loss 88.2; at
bar 2 the price 80 is below 88.2 yet the run ends with no trades and the
position still open. -/
theorem exit_priority_counterexample :
    (executeBollingerStrategy [100, 90, 80]
        (fun i => if i = 1 then some 95 else some 0) (fun _ => some 1000)
        ⟨1/50, 1/25⟩ 1000).trades = []
    ∧ (executeBollingerStrategy [100, 90, 80]
        (fun i => if i = 1 then some 95 else some 0) (fun _ => some 1000)
        ⟨1/50, 1/25⟩ 1000).position
      = some ⟨90, 1, 1000 * (95/100) / 90, 90 * (1 - 1/50), 90 * (1 + 1/25)⟩
    ∧ (80 : ℚ) ≤ 90 * (1 - 1/50) := by
  have hr : List.range' 1 (List.length ([100, 90, 80] : List ℚ) - 1)
      = [1, 2] := rfl
  refine ⟨?_, ?_, by norm_num⟩ <;>
  · simp only [executeBollingerStrategy, runStrategy, hr, List.foldl_cons,
      List.foldl_nil]
    norm_num [bollStep, appendEquity, enterLong, qLeO, qGeO]

/-- C1 amended: when the evaluator is IN_POSITION, `rsi_strategy` and
`macd_strategy` check the exit conditions in the fixed priority order
(a) strategy-specific exit signal, (b) `price ≤ stop_loss`,
(c) `price ≥ take_profit`, the first match fixing `exit_reason`;
`ma_crossover` and `bollinger_bands`, however, exit only on their
strategy-specific signal (`MA_CROSSOVER` resp. `BB_MIDDLE`) and never
consult `stop_loss` or `take_profit`. -/
theorem exit_priority_amended :
    (∀ (p : RsiParams) (closes : List ℚ) (rsi : ℕ → Option ℚ) (i : ℕ)
        (st : EvalState) (pos : Position), st.position = some pos →
        rsiStep p closes rsi i st
          = (firstExitReason (oGt (rsi i) p.overbought_level)
              "RSI_OVERBOUGHT" (closes.getD i 0) pos.stop_loss
              pos.take_profit).elim st
              (fun r => closePosition (closes.getD i 0) i r pos st))
    ∧ (∀ (p : MacdParams) (closes : List ℚ) (ml ms : ℕ → Option ℚ) (i : ℕ)
        (st : EvalState) (pos : Position), st.position = some pos →
        macdStep p closes ml ms i st
          = (firstExitReason (macdCrossDown ml ms i) "MACD_SIGNAL"
              (closes.getD i 0) pos.stop_loss pos.take_profit).elim st
              (fun r => closePosition (closes.getD i 0) i r pos st))
    ∧ (∀ (p : MaParams) (closes : List ℚ) (fastMa slowMa : ℕ → Option ℚ)
        (i : ℕ) (st : EvalState) (pos : Position), st.position = some pos →
        maStep p closes fastMa slowMa i st
          = if maCrossDown fastMa slowMa i then
              closePosition (closes.getD i 0) i "MA_CROSSOVER" pos st
            else st)
    ∧ (∀ (p : BollParams) (closes : List ℚ) (bbLower bbMiddle : ℕ → Option ℚ)
        (i : ℕ) (st : EvalState) (pos : Position), st.position = some pos →
        bollStep p closes bbLower bbMiddle i st
          = if qGeO (closes.getD i 0) (bbMiddle i) then
              closePosition (closes.getD i 0) i "BB_MIDDLE" pos st
            else st) := by
  refine ⟨fun p closes rsi i st pos hp => ?_,
    fun p closes ml ms i st pos hp => ?_,
    fun p closes fastMa slowMa i st pos hp => ?_,
    fun p closes bbLower bbMiddle i st pos hp => ?_⟩
  · simp only [rsiStep, hp, firstExitReason]
    split_ifs <;> rfl
  · simp only [macdStep, hp, firstExitReason]
    split_ifs <;> rfl
  · simp only [maStep, hp]
  · simp only [bollStep, hp]

/-- Witness for `exit_priority_amended` at a concrete IN_POSITION state. -/
theorem exit_priority_amended_witness :
    rsiStep ⟨30, 70, 1/50, 1/25⟩ [100, 90] (fun _ => some 80) 1
        ⟨[], 1000, some ⟨100, 0, 1, 98, 104⟩, [1000]⟩
      = (firstExitReason
          (oGt ((fun _ => (some 80 : Option ℚ)) 1)
            (RsiParams.overbought_level ⟨30, 70, 1/50, 1/25⟩))
          "RSI_OVERBOUGHT" (([100, 90] : List ℚ).getD 1 0)
          (Position.stop_loss ⟨100, 0, 1, 98, 104⟩)
          (Position.take_profit ⟨100, 0, 1, 98, 104⟩)).elim
          ⟨[], 1000, some ⟨100, 0, 1, 98, 104⟩, [1000]⟩
          (fun r => closePosition (([100, 90] : List ℚ).getD 1 0) 1 r
            ⟨100, 0, 1, 98, 104⟩
            ⟨[], 1000, some ⟨100, 0, 1, 98, 104⟩, [1000]⟩) :=
  exit_priority_amended.1 ⟨30, 70, 1/50, 1/25⟩ [100, 90] (fun _ => some 80) 1
    ⟨[], 1000, some ⟨100, 0, 1, 98, 104⟩, [1000]⟩ ⟨100, 0, 1, 98, 104⟩ rfl

/-! ## C9 and C10: metrics calculator -/

/-- C9: computing metrics on an empty trade list with equity curve
`[initial_capital]` returns `win_rate = 0`, `profit_factor = 0`,
`sharpe_ratio = 0` and `max_drawdown = 0`, raising no exception (the
embedding is a total function and takes the degenerate branch). -/
theorem metrics_degenerate (c : ℚ) :
    (calculateMetrics [] [c] c).win_rate = 0
    ∧ (calculateMetrics [] [c] c).profit_factor = .val 0
    ∧ (calculateMetrics [] [c] c).sharpe = 0
    ∧ (calculateMetrics [] [c] c).max_drawdown = 0 := by
  simp [calculateMetrics]

/-- C10: for every non-empty trade list with zero gross loss the profit
factor is the `float('inf')` sentinel, including the case of zero gross
profit (all pnl exactly 0). -/
theorem profit_factor_inf_on_zero_gross_loss (trades : List Trade)
    (equity : List ℚ) (cap : ℚ) (h1 : trades ≠ [])
    (h2 : grossLoss trades = 0) :
    (calculateMetrics trades equity cap).profit_factor = .posInf := by
  simp [calculateMetrics, h1, h2]

/-- Witness for `profit_factor_inf_on_zero_gross_loss`: a single trade with
pnl 0 (gross profit and gross loss both zero) yields the infinity
sentinel. -/
theorem profit_factor_inf_witness :
    [zeroTrade] ≠ [] ∧ grossLoss [zeroTrade] = 0
    ∧ (calculateMetrics [zeroTrade] [1000, 1000] 1000).profit_factor
      = .posInf :=
  ⟨by simp, by decide,
    profit_factor_inf_on_zero_gross_loss [zeroTrade] [1000, 1000] 1000
      (by simp) (by decide)⟩

/-! ## C2: unknown-strategy error handling -/

/-- A search loop whose every trial value is the `-inf` sentinel keeps
`best_value` at `-inf` and terminates normally. -/
theorem bayesianBestValue_all_sentinel (f : Metrics → ℚ) :
    ∀ l : List BacktestOutcome, (∀ o ∈ l, bayesianTrialValue f o = ⊥) →
      bayesianBestValue f l = ⊥ := by
  intro l
  induction l with
  | nil => intro _; rfl
  | cons x t ih =>
      intro h
      have hx : bayesianTrialValue f x = ⊥ := h x (by simp)
      have hstep : bayesianBestValue f (x :: t) = bayesianBestValue f t := by
        simp [bayesianBestValue, hx]
      rw [hstep]
      exact ih (fun o ho => h o (by simp [ho]))

/-- C2 counterexample: `run_backtest` on an unknown `strategy_id` does not
abort the search session; the `ValueError` is swallowed by `run_backtest`'s
catch-all `except`, the call returns a `success: False` record, and
`_bayesian_optimization`'s objective converts it into the per-trial
worst-objective sentinel `float('-inf')`; a session of such trials completes
normally with best value `-inf`. -/
theorem unknown_strategy_counterexample :
    runBacktest (sampleRequest "momentum_strategy")
      = .failure "Estrategia no encontrada: momentum_strategy"
    ∧ bayesianTrialValue Metrics.win_rate
        (runBacktest (sampleRequest "momentum_strategy")) = ⊥
    ∧ bayesianBestValue Metrics.win_rate
        (List.replicate 3 (runBacktest (sampleRequest "momentum_strategy")))
      = ⊥ := by
  have hm : "momentum_strategy" ∉ strategyIds := by decide
  have h1 : runBacktest (sampleRequest "momentum_strategy")
      = .failure "Estrategia no encontrada: momentum_strategy" := by
    rw [runBacktest]
    simp [sampleRequest, hm]
  refine ⟨h1, by rw [h1]; rfl, ?_⟩
  rw [h1]
  exact bayesianBestValue_all_sentinel _ _
    (fun o ho => by rw [List.eq_of_mem_replicate ho]; rfl)

/-- C2 amended: an unknown `strategy_id` makes `run_backtest` return a
failure record (`success: False`) instead of raising; the search engines
treat it as a per-trial failure — both the Bayesian objective and the
genetic fitness convert it to the worst-objective sentinel `-inf` — and the
trial loop completes normally instead of aborting the session. -/
theorem unknown_strategy_amended (req : BacktestRequest)
    (f : Metrics → ℚ) (n : ℕ) (h : req.strategy_name ∉ strategyIds) :
    runBacktest req
      = .failure ("Estrategia no encontrada: " ++ req.strategy_name)
    ∧ bayesianTrialValue f (runBacktest req) = ⊥
    ∧ geneticFitnessValue f (runBacktest req) = ⊥
    ∧ bayesianBestValue f (List.replicate n (runBacktest req)) = ⊥ := by
  have h1 : runBacktest req
      = .failure ("Estrategia no encontrada: " ++ req.strategy_name) := by
    rw [runBacktest]
    simp [h]
  refine ⟨h1, by rw [h1]; rfl, by rw [h1]; rfl, ?_⟩
  rw [h1]
  exact bayesianBestValue_all_sentinel _ _
    (fun o ho => by rw [List.eq_of_mem_replicate ho]; rfl)

/-- Witness for `unknown_strategy_amended` at a concrete unknown id. -/
theorem unknown_strategy_amended_witness :
    runBacktest (sampleRequest "sentiment_strategy")
      = .failure ("Estrategia no encontrada: "
          ++ (sampleRequest "sentiment_strategy").strategy_name)
    ∧ bayesianTrialValue Metrics.win_rate
        (runBacktest (sampleRequest "sentiment_strategy")) = ⊥
    ∧ geneticFitnessValue Metrics.win_rate
        (runBacktest (sampleRequest "sentiment_strategy")) = ⊥
    ∧ bayesianBestValue Metrics.win_rate
        (List.replicate 2 (runBacktest (sampleRequest "sentiment_strategy")))
      = ⊥ :=
  unknown_strategy_amended (sampleRequest "sentiment_strategy")
    Metrics.win_rate 2 (by decide)

/-! ## C6: grid-search exhaustiveness -/

/-- The Cartesian product has as many elements as the product of the factor
lengths. -/
theorem cartProd_length :
    ∀ ls : List (List α), (cartProd ls).length = (ls.map List.length).prod := by
  intro ls
  induction ls with
  | nil => rfl
  | cons vs rest ih =>
      simp only [cartProd, List.length_flatMap, List.map_map, List.map_cons,
        List.prod_cons]
      have : (List.map (List.length ∘ fun v => (cartProd rest).map
          (fun c => v :: c)) vs)
          = List.replicate vs.length (cartProd rest).length := by
        simp [Function.comp_def]
      rw [this, List.sum_replicate, smul_eq_mul, ih]

/-- Every member of the Cartesian product selects one value per factor. -/
theorem cartProd_mem_length :
    ∀ (ls : List (List α)) (c : List α), c ∈ cartProd ls →
      c.length = ls.length := by
  intro ls
  induction ls with
  | nil => intro c hc; simp [cartProd] at hc; simp [hc]
  | cons vs rest ih =>
      intro c hc
      simp only [cartProd, List.mem_flatMap, List.mem_map] at hc
      obtain ⟨v, _, c2, hc2, rfl⟩ := hc
      simp [ih c2 hc2]

/-- The Cartesian product of duplicate-free factors is duplicate-free:
every combination appears exactly once. -/
theorem cartProd_nodup :
    ∀ ls : List (List α), (∀ l ∈ ls, l.Nodup) → (cartProd ls).Nodup := by
  intro ls
  induction ls with
  | nil => intro _; simp [cartProd]
  | cons vs rest ih =>
      intro h
      have hvs : vs.Nodup := h vs (by simp)
      have hrest : (cartProd rest).Nodup := ih (fun l hl => h l (by simp [hl]))
      simp only [cartProd]
      rw [List.nodup_flatMap]
      constructor
      · intro v _
        exact hrest.map (fun c1 c2 hc => by simpa using hc)
      · refine hvs.imp ?_
        intro v w hvw
        intro c hc1 hc2
        simp only [List.mem_map] at hc1 hc2
        obtain ⟨c1, _, rfl⟩ := hc1
        obtain ⟨c2, _, he⟩ := hc2
        injection he with h1 h2
        exact hvw h1.symm

/-- Python ranges with positive step have no duplicates. -/
theorem pyRange_nodup (a b s : ℤ) (hs : 0 < s) : (pyRange a b s).Nodup := by
  unfold pyRange
  refine List.Nodup.map ?_ (List.nodup_range _)
  intro k1 k2 hk
  simp only at hk
  have h2 : (k1 : ℤ) * s = (k2 : ℤ) * s := by linarith
  have h3 := mul_right_cancel₀ (by omega : s ≠ 0) h2
  exact_mod_cast h3

/-- Int grids `range(min, max + 1, step)` never contain duplicates when the
declared step is positive. -/
theorem gridValues_int_nodup (lo hi : ℤ) (st : Option ℤ)
    (hs : 0 < st.getD 1) : (gridValues (.intRange lo hi st)).Nodup := by
  simp only [gridValues]
  exact List.Nodup.map (fun a b hab => by simpa using hab)
    (pyRange_nodup _ _ _ hs)

/-- C6: for a domain of integer parameters with positive declared steps,
grid search generates exactly the Cartesian product of the per-parameter
value lists — one entry per combination, no duplicates, in generation order
(first parameter slowest) — and `_parameter_sweep` keeps all of them when
there are at most 1000, truncating to the first 1000 in generation order
otherwise; in particular `{a: int 1..3, b: int 1..2}` yields exactly the six
combinations (1,1),(1,2),(2,1),(2,2),(3,1),(3,2). -/
theorem grid_search_exhaustive :
    (∀ domains : List (String × ParamRange),
        (∀ d ∈ domains, (gridValues d.2).Nodup) →
          (generateParameterCombinations domains).length
              = (domains.map (fun d => (gridValues d.2).length)).prod
            ∧ (generateParameterCombinations domains).Nodup
            ∧ ((generateParameterCombinations domains).length ≤ 1000 →
                sweepCombinations domains
                  = generateParameterCombinations domains)
            ∧ (1000 < (generateParameterCombinations domains).length →
                sweepCombinations domains
                  = (generateParameterCombinations domains).take 1000))
    ∧ generateParameterCombinations exampleDomainsAB
        = [[("a", .intV 1), ("b", .intV 1)], [("a", .intV 1), ("b", .intV 2)],
           [("a", .intV 2), ("b", .intV 1)], [("a", .intV 2), ("b", .intV 2)],
           [("a", .intV 3), ("b", .intV 1)], [("a", .intV 3), ("b", .intV 2)]] := by
  constructor
  · intro domains h
    have hlen : (generateParameterCombinations domains).length
        = (domains.map (fun d => (gridValues d.2).length)).prod := by
      simp only [generateParameterCombinations, List.length_map]
      rw [cartProd_length]
      simp [List.map_map, Function.comp_def]
    refine ⟨hlen, ?_, ?_, ?_⟩
    · have hnd : (cartProd (domains.map (fun d => gridValues d.2))).Nodup := by
        refine cartProd_nodup _ ?_
        intro l hl
        simp only [List.mem_map] at hl
        obtain ⟨d, hd, rfl⟩ := hl
        exact h d hd
      refine hnd.map_on ?_
      intro x hx y hy hxy
      have hxl : x.length = domains.length := by
        simpa using cartProd_mem_length _ x hx
      have hyl : y.length = domains.length := by
        simpa using cartProd_mem_length _ y hy
      have hx2 : (List.map Prod.snd ((domains.map Prod.fst).zip x)) = x :=
        List.map_snd_zip _ _ (by simp [hxl])
      have hy2 : (List.map Prod.snd ((domains.map Prod.fst).zip y)) = y :=
        List.map_snd_zip _ _ (by simp [hyl])
      rw [← hx2, ← hy2, hxy]
    · intro hle
      simp only [sweepCombinations]
      rw [if_neg (by omega)]
    · intro hgt
      simp only [sweepCombinations]
      rw [if_pos hgt]
  · decide

/-- Witness for `grid_search_exhaustive` on the worked two-parameter
domain. -/
theorem grid_search_exhaustive_witness :
    (generateParameterCombinations exampleDomainsAB).length
        = (exampleDomainsAB.map (fun d => (gridValues d.2).length)).prod
    ∧ (generateParameterCombinations exampleDomainsAB).Nodup
    ∧ ((generateParameterCombinations exampleDomainsAB).length ≤ 1000 →
        sweepCombinations exampleDomainsAB
          = generateParameterCombinations exampleDomainsAB)
    ∧ (1000 < (generateParameterCombinations exampleDomainsAB).length →
        sweepCombinations exampleDomainsAB
          = (generateParameterCombinations exampleDomainsAB).take 1000) :=
  grid_search_exhaustive.1 exampleDomainsAB (by decide)

/-! ## C3: declared-bounds invariant of the search engines -/

/-- C3 counterexample: for the declared float domain
`{min: 0, max: 1, step: 0.3}`, the grid enumeration
`np.arange(min, max + step, step)` probes the value `1.2`, which exceeds the
declared maximum: the bounds invariant fails for float grids whose step does
not divide `max - min`. -/
theorem search_bounds_counterexample :
    PVal.floatV (6/5) ∈ gridValues (.floatRange 0 1 (some (3/10)))
    ∧ ¬ inBounds (.floatRange 0 1 (some (3/10))) (.floatV (6/5)) := by
  constructor
  · have h5 : npArangeLen 0 (1 + 3/10) (3/10) = 5 := by
      rw [npArangeLen, if_pos (by norm_num)]
      rw [show ((1:ℚ) + 3/10 - 0) / (3/10) = 13/3 by norm_num]
      rw [show ⌈(13/3 : ℚ)⌉ = (5:ℤ) from by
        rw [Int.ceil_eq_iff] <;> norm_num]
      rfl
    simp only [gridValues, Option.getD_some]
    have hmem : (6/5 : ℚ) ∈ npArange 0 (1 + 3/10) (3/10) := by
      rw [npArange, h5]
      have he : (6/5 : ℚ) = 0 + ((4:ℕ) : ℚ) * (3/10) := by norm_num
      rw [he]
      exact List.mem_map_of_mem _ (by decide)
    exact List.mem_map_of_mem _ hmem
  · simp only [inBounds, not_and]
    intro _
    norm_num

/-- C3 amended: every candidate parameter value probed by the search
engines lies within the declared `[min, max]` bounds — for int grids, for
the genetic initializer and mutation draws, and for the Bayesian
suggestions — with one exception: the float grid enumerates
`np.arange(min, max + step, step)`, whose values are only guaranteed to lie
in `[min, max + step)` and exceed `max` whenever the declared step does not
divide `max - min`. -/
theorem search_bounds_amended :
    (∀ (lo hi : ℤ) (st : Option ℤ), 0 < st.getD 1 →
        ∀ v ∈ gridValues (.intRange lo hi st),
          inBounds (.intRange lo hi st) v)
    ∧ (∀ (lo hi : ℚ) (st : Option ℚ), 0 < st.getD ((hi - lo) / 10) →
        ∀ v ∈ gridValues (.floatRange lo hi st), ∃ q, v = .floatV q
          ∧ lo ≤ q ∧ q < hi + st.getD ((hi - lo) / 10))
    ∧ (∀ (pr : ParamRange) (seed : ℕ) (r : ℚ), rangeNonempty pr → 0 ≤ r →
        r ≤ 1 → inBounds pr (geneticSampleValue pr seed r))
    ∧ (∀ (pr : ParamRange) (seed : ℕ) (r : ℚ) (v : PVal),
        mutateParamValue pr true seed r v = geneticSampleValue pr seed r
        ∧ mutateParamValue pr false seed r v = v)
    ∧ (∀ (lo hi : ℤ) (seed : ℕ), lo ≤ hi →
        lo ≤ suggestIntOutcome lo hi seed ∧ suggestIntOutcome lo hi seed ≤ hi)
    ∧ (∀ (lo hi r : ℚ), lo ≤ hi → 0 ≤ r → r ≤ 1 →
        lo ≤ suggestFloatOutcome lo hi r
        ∧ suggestFloatOutcome lo hi r ≤ hi) := by
  refine ⟨?_, ?_, ?_, ?_, ?_, ?_⟩
  · intro lo hi st hs v hv
    simp only [gridValues, List.mem_map] at hv
    obtain ⟨z, hz, rfl⟩ := hv
    simp only [pyRange, List.mem_map] at hz
    obtain ⟨k, hk, rfl⟩ := hz
    rw [List.mem_range] at hk
    simp only [inBounds]
    rw [pyRangeLen] at hk
    by_cases hlt : lo < hi + 1
    · rw [if_pos ⟨hlt, hs⟩] at hk
      have hd0 : 0 ≤ (hi + 1 - lo - 1) / st.getD 1 :=
        Int.ediv_nonneg (by omega) (by omega)
      have hds : (hi + 1 - lo - 1) / st.getD 1 * st.getD 1 ≤ hi + 1 - lo - 1 :=
        Int.ediv_mul_le _ (by omega)
      have hk2 : (k : ℤ) ≤ (hi + 1 - lo - 1) / st.getD 1 := by omega
      have hks : (k : ℤ) * st.getD 1
          ≤ (hi + 1 - lo - 1) / st.getD 1 * st.getD 1 :=
        mul_le_mul_of_nonneg_right hk2 (by omega)
      have hpos : 0 ≤ (k : ℤ) * st.getD 1 :=
        mul_nonneg (by positivity) (by omega)
      exact ⟨by linarith, by linarith⟩
    · rw [if_neg (fun hc => hlt hc.1)] at hk
      omega
  · intro lo hi st hs v hv
    simp only [gridValues, List.mem_map] at hv
    obtain ⟨q, hq, rfl⟩ := hv
    simp only [npArange, List.mem_map] at hq
    obtain ⟨k, hk, rfl⟩ := hq
    rw [List.mem_range] at hk
    refine ⟨_, rfl, ?_, ?_⟩
    · have : 0 ≤ (k : ℚ) * st.getD ((hi - lo) / 10) :=
        mul_nonneg (by positivity) (le_of_lt hs)
      linarith
    · rw [npArangeLen, if_pos hs] at hk
      have hceil : (k : ℤ)
          < ⌈(hi + st.getD ((hi - lo) / 10) - lo) / st.getD ((hi - lo) / 10)⌉ := by
        omega
      have hc2 : ((k : ℤ) : ℚ)
          < (hi + st.getD ((hi - lo) / 10) - lo) / st.getD ((hi - lo) / 10) :=
        Int.lt_ceil.mp hceil
      have hc3 : (k : ℚ) * st.getD ((hi - lo) / 10)
          < hi + st.getD ((hi - lo) / 10) - lo :=
        (lt_div_iff hs).mp (by exact_mod_cast hc2)
      linarith
  · intro pr seed r hne h0 h1
    cases pr with
    | intRange lo hi st =>
        have hlh : lo ≤ hi := hne
        simp only [geneticSampleValue, inBounds, randintOutcome]
        have hm : seed % (hi + 1 - lo).toNat < (hi + 1 - lo).toNat :=
          Nat.mod_lt _ (by omega)
        omega
    | floatRange lo hi st =>
        have hlh : lo ≤ hi := hne
        simp only [geneticSampleValue, inBounds, uniformOutcome]
        constructor
        · have : 0 ≤ r * (hi - lo) := mul_nonneg h0 (by linarith)
          linarith
        · have : r * (hi - lo) ≤ 1 * (hi - lo) :=
            mul_le_mul_of_nonneg_right h1 (by linarith)
          linarith
  · intro pr seed r v
    exact ⟨rfl, rfl⟩
  · intro lo hi seed hlh
    simp only [suggestIntOutcome]
    have hm : seed % (hi + 1 - lo).toNat < (hi + 1 - lo).toNat :=
      Nat.mod_lt _ (by omega)
    omega
  · intro lo hi r hlh h0 h1
    simp only [suggestFloatOutcome]
    constructor
    · have : 0 ≤ r * (hi - lo) := mul_nonneg h0 (by linarith)
      linarith
    · have : r * (hi - lo) ≤ 1 * (hi - lo) :=
        mul_le_mul_of_nonneg_right h1 (by linarith)
      linarith

/-- Witness for `search_bounds_amended` at concrete domains and draws. -/
theorem search_bounds_amended_witness :
    (∀ v ∈ gridValues (.intRange 1 3 none), inBounds (.intRange 1 3 none) v)
    ∧ inBounds (.intRange 1 10 none)
        (geneticSampleValue (.intRange 1 10 none) 6 0)
    ∧ ((1:ℤ) ≤ suggestIntOutcome 1 10 4 ∧ suggestIntOutcome 1 10 4 ≤ 10) :=
  ⟨search_bounds_amended.1 1 3 none (by norm_num),
   search_bounds_amended.2.2.1 (.intRange 1 10 none) 6 0
     (show (1:ℤ) ≤ 10 by norm_num) le_rfl (by norm_num),
   search_bounds_amended.2.2.2.2.1 1 10 4 (by norm_num)⟩

/-! ## C8: walk-forward window count -/

/-- Closed form of the walk-forward loop from an arbitrary current
offset. -/
theorem walkForwardCount_closed (W S D : ℕ) (hS : 1 ≤ S) :
    ∀ cur, walkForwardCount W S D cur
      = if cur + W ≤ D then (D - W - cur) / S + 1 else 0 := by
  suffices h : ∀ fuel cur, D + 1 - cur ≤ fuel →
      walkForwardCount W S D cur
        = if cur + W ≤ D then (D - W - cur) / S + 1 else 0 by
    intro cur
    exact h (D + 1) cur (by omega)
  intro fuel
  induction fuel with
  | zero =>
      intro cur hcur
      rw [walkForwardCount, dif_neg (by omega), if_neg (by omega)]
  | succ m ih =>
      intro cur hcur
      rw [walkForwardCount]
      by_cases hc : cur + W ≤ D
      · rw [dif_pos ⟨by omega, hc⟩, ih (cur + S) (by omega), if_pos hc]
        by_cases hc2 : cur + S + W ≤ D
        · rw [if_pos hc2]
          have he : D - W - cur = (D - W - (cur + S)) + S := by omega
          rw [he, Nat.add_div_right _ (by omega)]
        · rw [if_neg hc2]
          have hlt : D - W - cur < S := by omega
          rw [Nat.div_eq_of_lt hlt]
      · rw [dif_neg (fun hcc => hc hcc.2), if_neg hc]

/-- C8: for walk-forward analysis over a date range of D days with positive
window_size W and step_size S, the number of backtest windows executed is
`(D - W) / S + 1` (floor division) when `W ≤ D`, and 0 when `D < W`. -/
theorem walk_forward_window_count (D W S : ℕ) (hW : 1 ≤ W) (hS : 1 ≤ S) :
    walkForwardCount W S D 0 = if W ≤ D then (D - W) / S + 1 else 0 := by
  rw [walkForwardCount_closed W S D hS 0]
  simp

/-- Witness for `walk_forward_window_count` with the source defaults
(window 90 days, step 30 days, one-year range). -/
theorem walk_forward_window_count_witness :
    walkForwardCount 90 30 365 0 = 10 := by
  have h := walk_forward_window_count 365 90 30 (by norm_num) (by norm_num)
  rw [h, if_pos (by norm_num)]

/-! ## C7: genetic-search best tracking -/

/-- The per-individual best update is a max on the fitness component. -/
theorem foldl_updateBest_snd {α F : Type} [LinearOrder F] (f : α → F) :
    ∀ (pop : List α) (b : Option α × WithBot F),
      (pop.foldl (updateBest f) b).2
        = pop.foldl (fun m x => max m (f x : WithBot F)) b.2 := by
  intro pop
  induction pop with
  | nil => intro b; rfl
  | cons x t ih =>
      intro b
      simp only [List.foldl_cons]
      rw [ih]
      congr 1
      by_cases h : b.2 < (f x : WithBot F)
      · simp [updateBest, h, max_eq_right h.le]
      · simp [updateBest, h, max_eq_left (not_lt.mp h)]

/-- Folding max from an arbitrary accumulator factors through the
bottom-seeded fold. -/
theorem foldl_max_acc {α F : Type} [LinearOrder F] (f : α → F) :
    ∀ (l : List α) (b : WithBot F),
      l.foldl (fun m x => max m (f x : WithBot F)) b
        = max b (l.foldl (fun m x => max m (f x : WithBot F)) ⊥) := by
  intro l
  induction l with
  | nil =>
      intro b
      simp only [List.foldl_nil]
      exact (max_eq_left bot_le).symm
  | cons x t ih =>
      intro b
      simp only [List.foldl_cons]
      rw [ih (max b ↑(f x)), ih (max ⊥ ↑(f x)), max_eq_right bot_le,
        max_assoc]

theorem bestScore_cons {α F : Type} [LinearOrder F] (f : α → F) (x : α)
    (t : List α) :
    bestScore f (x :: t) = max (f x : WithBot F) (bestScore f t) := by
  simp only [bestScore, List.foldl_cons]
  rw [foldl_max_acc, max_eq_right bot_le]

theorem le_bestScore_of_mem {α F : Type} [LinearOrder F] (f : α → F)
    {pop : List α} {x : α} (hx : x ∈ pop) :
    (f x : WithBot F) ≤ bestScore f pop := by
  induction pop with
  | nil => cases hx
  | cons y t ih =>
      rw [bestScore_cons]
      rcases List.mem_cons.mp hx with rfl | hmem
      · exact le_max_left _ _
      · exact le_trans (ih hmem) (le_max_right _ _)

theorem bestScore_le {α F : Type} [LinearOrder F] (f : α → F)
    {pop : List α} {c : WithBot F} (h : ∀ x ∈ pop, (f x : WithBot F) ≤ c) :
    bestScore f pop ≤ c := by
  induction pop with
  | nil => exact bot_le
  | cons y t ih =>
      rw [bestScore_cons]
      exact max_le (h y (by simp)) (ih (fun x hx => h x (by simp [hx])))

/-- The elite slice (argsort descending, take k ≥ 1) contains a
fitness-maximal member of the population. -/
theorem eliteOf_max {α F : Type} [LinearOrder F] (f : α → F) (pop : List α)
    (k : ℕ) (hpop : pop ≠ []) (hk : 1 ≤ k) :
    ∃ e ∈ eliteOf f pop k, ∀ x ∈ pop, f x ≤ f e := by
  have htrans : ∀ a b c : α,
      fitDesc f a b → fitDesc f b c → fitDesc f a c := by
    intro a b c hab hbc
    simp only [fitDesc, decide_eq_true_eq] at hab hbc ⊢
    exact le_trans hbc hab
  have htotal : ∀ a b : α, fitDesc f a b || fitDesc f b a := by
    intro a b
    simp only [fitDesc]
    rcases le_total (f b) (f a) with h | h <;> simp [h]
  have hsorted := List.sorted_mergeSort htrans htotal pop
  have hperm := List.mergeSort_perm pop (fitDesc f)
  cases hs : pop.mergeSort (fitDesc f) with
  | nil =>
      rw [hs] at hperm
      exact absurd hperm.symm.eq_nil hpop
  | cons e t =>
      refine ⟨e, ?_, ?_⟩
      · obtain ⟨m, rfl⟩ : ∃ m, k = m + 1 := ⟨k - 1, by omega⟩
        simp [eliteOf, hs]
      · intro x hx
        rw [hs] at hperm hsorted
        rcases List.mem_cons.mp (hperm.mem_iff.mpr hx) with rfl | hmem
        · exact le_refl _
        · have := (List.pairwise_cons.mp hsorted).1 x hmem
          simpa [fitDesc] using this

theorem evalPhase_best {α F : Type} [LinearOrder F] (f : α → F)
    (st : GenState α F) :
    (evalPhase f st).bestFitness
      = max st.bestFitness (bestScore f st.population) := by
  simp only [evalPhase]
  rw [foldl_updateBest_snd]
  exact foldl_max_acc f st.population st.bestFitness

theorem evalPhase_history {α F : Type} [LinearOrder F] (f : α → F)
    (st : GenState α F) :
    (evalPhase f st).history
      = st.history ++ [bestScore f st.population] := rfl

theorem reproducePhase_best {α F : Type} [LinearOrder F] (f : α → F)
    (P : ℕ) (children : List α) (st : GenState α F) :
    (reproducePhase f P children st).bestFitness = st.bestFitness := rfl

theorem reproducePhase_history {α F : Type} [LinearOrder F] (f : α → F)
    (P : ℕ) (children : List α) (st : GenState α F) :
    (reproducePhase f P children st).history = st.history := rfl

/-- The loop body depends on the total generation count only through the
reproduce-or-not comparison. -/
theorem foldl_geneticStep_congr {α F : Type} [LinearOrder F] (f : α → F)
    (P : ℕ) (children : ℕ → List α) (G G' : ℕ) :
    ∀ l : List ℕ, (∀ j ∈ l, (j < G - 1 ↔ j < G' - 1)) →
      ∀ st : GenState α F,
        l.foldl (geneticStep f P G children) st
          = l.foldl (geneticStep f P G' children) st := by
  intro l
  induction l with
  | nil => intro _ st; rfl
  | cons j t ih =>
      intro h st
      simp only [List.foldl_cons]
      have hj := h j (by simp)
      have hstep : geneticStep f P G children st j
          = geneticStep f P G' children st j := by
        simp only [geneticStep]
        by_cases hc : j < G - 1
        · rw [if_pos hc, if_pos (hj.mp hc)]
        · rw [if_neg hc, if_neg (fun hc2 => hc (hj.mpr hc2))]
      rw [hstep]
      exact ih (fun x hx => h x (by simp [hx])) _

/-- Steps with the reproduce branch always taken. -/
theorem foldl_step_eq_rep {α F : Type} [LinearOrder F] (f : α → F)
    (P : ℕ) (children : ℕ → List α) (G : ℕ) :
    ∀ l : List ℕ, (∀ j ∈ l, j < G - 1) → ∀ st : GenState α F,
      l.foldl (geneticStep f P G children) st
        = l.foldl (geneticStepRep f P children) st := by
  intro l
  induction l with
  | nil => intro _ st; rfl
  | cons j t ih =>
      intro h st
      simp only [List.foldl_cons]
      have hstep : geneticStep f P G children st j
          = geneticStepRep f P children st j := by
        simp only [geneticStep, geneticStepRep]
        rw [if_pos (h j (by simp))]
      rw [hstep]
      exact ih (fun x hx => h x (by simp [hx])) _

/-- A run of at least one generation is an always-reproduce prefix followed
by a final evaluation-only generation. -/
theorem geneticRun_eq_evalPhase {α F : Type} [LinearOrder F] (f : α → F)
    (P : ℕ) (children : ℕ → List α) (initPop : List α) (G : ℕ)
    (hG : 1 ≤ G) :
    geneticRun f P children initPop G
      = evalPhase f ((List.range (G - 1)).foldl
          (geneticStepRep f P children) (geneticInit initPop)) := by
  obtain ⟨m, rfl⟩ : ∃ m, G = m + 1 := ⟨G - 1, by omega⟩
  simp only [geneticRun, Nat.add_sub_cancel]
  rw [List.range_succ, List.foldl_append]
  rw [foldl_step_eq_rep f P children (m + 1) (List.range m)
    (fun j hj => by simpa using List.mem_range.mp hj)]
  simp only [List.foldl_cons, List.foldl_nil, geneticStep]
  rw [if_neg (by omega)]

/-- The running best only grows along the loop. -/
theorem foldl_geneticStep_best_mono {α F : Type} [LinearOrder F]
    (f : α → F) (P G : ℕ) (children : ℕ → List α) :
    ∀ (l : List ℕ) (st : GenState α F),
      st.bestFitness ≤ (l.foldl (geneticStep f P G children) st).bestFitness := by
  intro l
  induction l with
  | nil => intro st; exact le_refl _
  | cons j t ih =>
      intro st
      simp only [List.foldl_cons]
      refine le_trans ?_ (ih _)
      simp only [geneticStep]
      split_ifs
      · rw [reproducePhase_best, evalPhase_best]
        exact le_max_left _ _
      · rw [evalPhase_best]
        exact le_max_left _ _

/-- The running best equals the max of the recorded per-generation bests. -/
theorem foldl_geneticStep_inv {α F : Type} [LinearOrder F] (f : α → F)
    (P G : ℕ) (children : ℕ → List α) :
    ∀ (l : List ℕ) (st : GenState α F),
      st.bestFitness = st.history.foldl max ⊥ →
      (l.foldl (geneticStep f P G children) st).bestFitness
        = ((l.foldl (geneticStep f P G children) st).history).foldl max ⊥ := by
  intro l
  induction l with
  | nil => intro st h; exact h
  | cons j t ih =>
      intro st h
      simp only [List.foldl_cons]
      refine ih _ ?_
      simp only [geneticStep]
      split_ifs
      · rw [reproducePhase_best, reproducePhase_history, evalPhase_best,
          evalPhase_history, List.foldl_append, h]
        rfl
      · rw [evalPhase_best, evalPhase_history, List.foldl_append, h]
        rfl

/-- The elite carry-over keeps the recorded per-generation bests
non-decreasing along the always-reproduce prefix. -/
theorem foldl_stepRep_inv {α F : Type} [LinearOrder F] (f : α → F)
    (P : ℕ) (children : ℕ → List α) (hP : 4 ≤ P) :
    ∀ (l : List ℕ) (st : GenState α F),
      st.history.Chain' (· ≤ ·) →
      st.population ≠ [] →
      (∀ s ∈ st.history.getLast?, s ≤ bestScore f st.population) →
      ((l.foldl (geneticStepRep f P children) st).history.Chain' (· ≤ ·)
        ∧ (l.foldl (geneticStepRep f P children) st).population ≠ []
        ∧ (∀ s ∈ ((l.foldl (geneticStepRep f P children) st).history).getLast?,
            s ≤ bestScore f
              (l.foldl (geneticStepRep f P children) st).population)) := by
  intro l
  induction l with
  | nil => intro st h1 h2 h3; exact ⟨h1, h2, h3⟩
  | cons j t ih =>
      intro st h1 h2 h3
      simp only [List.foldl_cons]
      obtain ⟨e, he, hemax⟩ := eliteOf_max f st.population (P / 4) h2
        (by omega)
      refine ih _ ?_ ?_ ?_
      · simp only [geneticStepRep, reproducePhase_history, evalPhase_history]
        refine List.Chain'.append h1 (by simp) ?_
        intro x hx y hy
        simp only [List.head?_cons, Option.mem_def, Option.some.injEq] at hy
        subst hy
        exact h3 x hx
      · simp only [geneticStepRep, reproducePhase]
        exact List.ne_nil_of_mem (List.mem_append_left _ he)
      · simp only [geneticStepRep, reproducePhase_history, evalPhase_history]
        intro s hs
        rw [List.getLast?_concat] at hs
        simp only [Option.mem_def, Option.some.injEq] at hs
        subst hs
        have h4 : bestScore f st.population ≤ (f e : WithBot F) :=
          bestScore_le f (fun x hx => by
            exact_mod_cast WithBot.coe_le_coe.mpr (hemax x hx))
        have h5 : (f e : WithBot F) ≤ bestScore f
            (eliteOf f st.population (P / 4) ++ children j) :=
          le_bestScore_of_mem f (List.mem_append_left _ he)
        simp only [reproducePhase, evalPhase]
        exact le_trans h4 h5

/-- The best-individual slot always carries an individual achieving the
tracked best fitness (or the run saw nothing and the best is `-inf`). -/
theorem foldl_updateBest_achieves {α F : Type} [LinearOrder F] (f : α → F) :
    ∀ (pop : List α) (b : Option α × WithBot F),
      (b.2 = ⊥ ∨ ∃ x, b.1 = some x ∧ b.2 = (f x : WithBot F)) →
      ((pop.foldl (updateBest f) b).2 = ⊥
        ∨ ∃ x, (pop.foldl (updateBest f) b).1 = some x
            ∧ (pop.foldl (updateBest f) b).2 = (f x : WithBot F)) := by
  intro pop
  induction pop with
  | nil => intro b h; exact h
  | cons y t ih =>
      intro b h
      simp only [List.foldl_cons]
      refine ih _ ?_
      by_cases hc : b.2 < (f y : WithBot F)
      · right
        exact ⟨y, by simp [updateBest, hc]⟩
      · simp only [updateBest, if_neg hc]
        exact h

theorem foldl_geneticStep_achieves {α F : Type} [LinearOrder F]
    (f : α → F) (P G : ℕ) (children : ℕ → List α) :
    ∀ (l : List ℕ) (st : GenState α F),
      (st.bestFitness = ⊥
        ∨ ∃ b, st.bestIndividual = some b
            ∧ st.bestFitness = (f b : WithBot F)) →
      ((l.foldl (geneticStep f P G children) st).bestFitness = ⊥
        ∨ ∃ b, (l.foldl (geneticStep f P G children) st).bestIndividual
              = some b
            ∧ (l.foldl (geneticStep f P G children) st).bestFitness
              = (f b : WithBot F)) := by
  intro l
  induction l with
  | nil => intro st h; exact h
  | cons j t ih =>
      intro st h
      simp only [List.foldl_cons]
      refine ih _ ?_
      have he := foldl_updateBest_achieves f st.population
        (st.bestIndividual, st.bestFitness) h
      simp only [geneticStep]
      split_ifs
      · simpa [reproducePhase, evalPhase] using he
      · simpa [evalPhase] using he

/-- C7: along a genetic run the tracked best objective value
(`best_fitness`) is monotonically non-decreasing across generations; the
value returned after the final generation equals the maximum of all
per-generation bests recorded in `generation_history` (the best ever seen,
not just the final generation's best); the returned best individual
achieves that value; and — the elitist carry-over — for population size at
least 4 the recorded per-generation bests themselves form a non-decreasing
chain. -/
theorem genetic_best_monotone {α F : Type} [LinearOrder F] :
    (∀ (fitness : α → F) (P : ℕ) (children : ℕ → List α)
        (initPop : List α) (g : ℕ),
        (geneticRun fitness P children initPop g).bestFitness
          ≤ (geneticRun fitness P children initPop (g + 1)).bestFitness)
    ∧ (∀ (fitness : α → F) (P : ℕ) (children : ℕ → List α)
        (initPop : List α) (gens : ℕ),
        (geneticRun fitness P children initPop gens).bestFitness
          = ((geneticRun fitness P children initPop gens).history).foldl
              max ⊥)
    ∧ (∀ (fitness : α → F) (P : ℕ) (children : ℕ → List α)
        (initPop : List α) (gens : ℕ),
        (geneticRun fitness P children initPop gens).bestFitness = ⊥
        ∨ ∃ b, (geneticRun fitness P children initPop gens).bestIndividual
              = some b
            ∧ (geneticRun fitness P children initPop gens).bestFitness
              = (fitness b : WithBot F))
    ∧ (∀ (fitness : α → F) (P : ℕ) (children : ℕ → List α)
        (initPop : List α) (gens : ℕ), 4 ≤ P → initPop ≠ [] →
        ((geneticRun fitness P children initPop gens).history).Chain'
          (· ≤ ·)) := by
  refine ⟨?_, ?_, ?_, ?_⟩
  · intro fitness P children initPop g
    cases g with
    | zero => exact bot_le
    | succ m =>
        rw [geneticRun_eq_evalPhase fitness P children initPop (m + 1)
          (by omega)]
        rw [geneticRun_eq_evalPhase fitness P children initPop (m + 2)
          (by omega)]
        simp only [Nat.add_sub_cancel, show m + 2 - 1 = m + 1 from rfl]
        rw [List.range_succ, List.foldl_append]
        simp only [List.foldl_cons, List.foldl_nil]
        set A := (List.range m).foldl (geneticStepRep fitness P children)
          (geneticInit initPop) with hA
        rw [evalPhase_best, evalPhase_best]
        simp only [geneticStepRep, reproducePhase_best, reproducePhase]
        rw [evalPhase_best]
        exact le_max_left _ _
  · intro fitness P children initPop gens
    exact foldl_geneticStep_inv fitness P gens children (List.range gens)
      (geneticInit initPop) rfl
  · intro fitness P children initPop gens
    exact foldl_geneticStep_achieves fitness P gens children
      (List.range gens) (geneticInit initPop) (Or.inl rfl)
  · intro fitness P children initPop gens hP hpop
    cases gens with
    | zero => simp [geneticRun, geneticInit]
    | succ m =>
        rw [geneticRun_eq_evalPhase fitness P children initPop (m + 1)
          (by omega)]
        simp only [Nat.add_sub_cancel]
        have hinv := foldl_stepRep_inv fitness P children hP (List.range m)
          (geneticInit initPop) (by simp [geneticInit]) (by simp [geneticInit, hpop])
          (by simp [geneticInit])
        rw [evalPhase_history]
        refine List.Chain'.append hinv.1 (by simp) ?_
        intro x hx y hy
        simp only [List.head?_cons, Option.mem_def, Option.some.injEq] at hy
        subst hy
        exact hinv.2.2 x hx

/-- Witness for `genetic_best_monotone` on a concrete four-individual
run. -/
theorem genetic_best_monotone_witness :
    ((geneticRun (fun z : ℤ => (z : ℚ)) 4 (fun _ => [0, 0, 0])
        [1, 2, 3, 4] 2).history).Chain' (· ≤ ·) :=
  genetic_best_monotone.2.2.2 (fun z : ℤ => (z : ℚ)) 4 (fun _ => [0, 0, 0])
    [1, 2, 3, 4] 2 (by norm_num) (by simp)

end AgentAI
